import Mathlib

/-!
Shallow embedding of the layout extension module of the penrose window
manager (src/extensions/layout/mod.rs): the Fibonacci and Tatami layouts,
their message handling, and the rectangle geometry primitives they use.

Embedding conventions:
- `u32` fields become `Nat`.
- `f32` ratio fields become rationals (`ℚ`; every finite f32 value is a
  rational).  The ratio arithmetic in handle_message is modelled exactly.
  The in-src cast `(r.w as f32 * self.ratio) as u32` of Tatami::layout
  (source line 219) is modelled with exact IEEE-754 binary32 semantics:
  round to nearest, ties to even, for both the integer-to-f32 conversion
  and the product (`rnd32`), then saturating truncation toward zero
  (`f32_to_u32`).  The geometry primitives, which are not in the provided
  sources and are modelled from the spec, use exact fractions as spec
  section 4.1 describes them.
- Fallible operations (`Result` in the source, with `.expect(..)` turning
  an error into a panic) become `Option`; `none` stands for the panic.
- Methods taking `&mut self` return the post-state explicitly: `layout`
  returns `Option (State × Option Unit × List (Xid × Rect))` (post-state,
  replacement layout, placements) and `handle_message` returns
  `State × Option Unit`.  The replacement layout slot
  (`Option<Box<dyn Layout>>` in the source) is embedded as `Option Unit`
  since both algorithms only ever produce `None` there.
- The ordered focus collection (`Stack<Xid>`) enters both algorithms only
  through its iteration order and length, so it is embedded as the list of
  identifiers it yields in tiling order.
-/

set_option autoImplicit false

namespace Penrose

/-- Window identifiers are opaque; embedded as `Nat`. -/
abbrev Xid := Nat

/-- Modelled from the spec: an axis-aligned pixel region with top-left
corner x,y and non-negative integer width/height (the `Rect` geometry
primitive, which is not part of the sources provided). -/
structure Rect where
  x : Nat
  y : Nat
  w : Nat
  h : Nat
deriving DecidableEq, Repr

/-- The set of pixel points covered by a rectangle, as a predicate. -/
def Rect.containsP (r : Rect) (px py : Nat) : Prop :=
  r.x ≤ px ∧ px < r.x + r.w ∧ r.y ≤ py ∧ py < r.y + r.h

instance (r : Rect) (px py : Nat) : Decidable (r.containsP px py) := by
  unfold Rect.containsP
  infer_instance

/-- Modelled from the spec: the split point at fraction `p` of a dimension
of `n` pixels, used by the percentage split primitives of the geometry
module (spec section 4.1, not part of the sources provided); the fraction
is applied exactly and truncated toward zero, negative values saturating
to zero. -/
def fracOf (n : Nat) (p : ℚ) : Nat := (Int.floor ((n : ℚ) * p)).toNat

/-- Round a non-negative rational to the nearest integer multiple of the
grid unit `u`, ties to the even multiple: the IEEE-754 round-to-nearest-even
rule on a fixed-exponent grid. -/
def roundGrid (q u : ℚ) : ℚ :=
  let n : ℤ := ⌊q / u⌋
  if q / u - n < 1/2 then n * u
  else if 1/2 < q / u - n then (n + 1) * u
  else (if 2 ∣ n then n else n + 1) * u

/-- Round a rational to IEEE-754 binary32 (round to nearest, ties to even):
the grid unit is 2^(e-23) for a magnitude in the binade [2^e, 2^(e+1)) with
e ≥ -126, and 2^(-149) in the subnormal range.  Finite range only: overflow
to infinity is not modelled (under the hypotheses of the theorems below no
computation leaves the finite range). -/
def rnd32 (q : ℚ) : ℚ :=
  if q = 0 then 0
  else
    (if q < 0 then (-1 : ℚ) else 1) *
      roundGrid |q|
        (if Int.log 2 |q| ≤ -127 then (2:ℚ) ^ (-149 : ℤ)
         else (2:ℚ) ^ (Int.log 2 |q| - 23))

/-- The saturating `as u32` cast applied to a finite f32 value: truncation
toward zero, clamped to the u32 range. -/
def f32_to_u32 (q : ℚ) : Nat := min (Int.toNat ⌊q⌋) 4294967295

/-- The expression `(r.w as f32 * self.ratio) as u32` of Tatami::layout
(source line 219), with exact binary32 semantics: the u32 width is rounded
to f32, multiplied by the (f32) ratio with the product rounded again to
f32, and the result cast to u32. -/
def f32SplitWidth (w : Nat) (p : ℚ) : Nat := f32_to_u32 (rnd32 (rnd32 (w : ℚ) * p))

/-- Modelled from the spec: split at an absolute pixel width; fails with an
InvalidSplit condition when the requested width exceeds the available
width; the first result keeps the original corner. -/
def Rect.split_at_width (r : Rect) (k : Nat) : Option (Rect × Rect) :=
  if k ≤ r.w then
    some (Rect.mk r.x r.y k r.h, Rect.mk (r.x + k) r.y (r.w - k) r.h)
  else none

/-- Modelled from the spec: split at an absolute pixel height, analogous to
`split_at_width`. -/
def Rect.split_at_height (r : Rect) (k : Nat) : Option (Rect × Rect) :=
  if k ≤ r.h then
    some (Rect.mk r.x r.y r.w k, Rect.mk r.x (r.y + k) r.w (r.h - k))
  else none

/-- Modelled from the spec: split along the width at fraction `p` of the
total width; fails with an InvalidRatio condition when `p` is outside
`[0,1]`. -/
def Rect.split_at_width_perc (r : Rect) (p : ℚ) : Option (Rect × Rect) :=
  if 0 ≤ p ∧ p ≤ 1 then r.split_at_width (fracOf r.w p) else none

/-- Modelled from the spec: split along the height at fraction `p` of the
total height; fails with an InvalidRatio condition when `p` is outside
`[0,1]`. -/
def Rect.split_at_height_perc (r : Rect) (p : ℚ) : Option (Rect × Rect) :=
  if 0 ≤ p ∧ p ≤ 1 then r.split_at_height (fracOf r.h p) else none

/-- Modelled from the spec: unconditional 50/50 split along the width;
always succeeds, degenerate zero-width results permitted. -/
def Rect.split_at_mid_width (r : Rect) : Rect × Rect :=
  (Rect.mk r.x r.y (r.w / 2) r.h, Rect.mk (r.x + r.w / 2) r.y (r.w - r.w / 2) r.h)

/-- Modelled from the spec: unconditional 50/50 split along the height;
always succeeds, degenerate zero-height results permitted. -/
def Rect.split_at_mid_height (r : Rect) : Rect × Rect :=
  (Rect.mk r.x r.y r.w (r.h / 2), Rect.mk r.x (r.y + r.h / 2) r.w (r.h - r.h / 2))

/-- Modelled from the spec: partition into `n` equal-height rows whose
heights sum exactly to the original height, remainder pixels assigned to
the last segment. -/
def Rect.as_rows (r : Rect) (n : Nat) : List Rect :=
  if n ≤ 1 then [r]
  else
    (List.range (n - 1)).map (fun i => Rect.mk r.x (r.y + i * (r.h / n)) r.w (r.h / n)) ++
      [Rect.mk r.x (r.y + (n - 1) * (r.h / n)) r.w (r.h - (n - 1) * (r.h / n))]

/-- Modelled from the spec: partition into `n` equal-width columns whose
widths sum exactly to the original width, remainder pixels assigned to the
last segment. -/
def Rect.as_columns (r : Rect) (n : Nat) : List Rect :=
  if n ≤ 1 then [r]
  else
    (List.range (n - 1)).map (fun i => Rect.mk (r.x + i * (r.w / n)) r.y (r.w / n) r.h) ++
      [Rect.mk (r.x + (n - 1) * (r.w / n)) r.y (r.w - (n - 1) * (r.w / n)) r.h]

/-- Modelled from the spec: the command message envelope carries one of an
open set of kinds; at minimum ExpandMain and ShrinkMain (no payload), and
arbitrarily many unrecognized kinds, embedded as `other k`. -/
inductive Message where
  | expandMain : Message
  | shrinkMain : Message
  | other : Nat → Message
deriving DecidableEq, Repr

/-- State of the Fibonacci layout (source lines 39-44). -/
structure Fibonacci where
  cutoff : Nat
  ratio : ℚ
  ratio_step : ℚ
deriving DecidableEq, Repr

/-- The Default impl for Fibonacci (source lines 46-54). -/
def Fibonacci.default : Fibonacci := Fibonacci.mk 40 (1/2) (1/10)

/-- State of the Tatami layout (source lines 180-184). -/
structure Tatami where
  ratio : ℚ
  ratio_step : ℚ
deriving DecidableEq, Repr

/-- The Default impl for Tatami (source lines 198-205). -/
def Tatami.default : Tatami := Tatami.mk (3/5) (1/10)

/-- Loop body of Fibonacci::layout (source lines 96-121).  The index `i`
tracks the enumeration counter; the source condition `i == n - 1` is the
condition `rest = []` here.  The mutations `r1.w += r2.w` and
`r1.h += r2.h` are the record updates in the cutoff branch. -/
def fibLoop (cutoff : Nat) (ratio : ℚ) :
    List Xid → Nat → Rect → Rect → Option (List (Xid × Rect))
  | [], _, _, _ => some []
  | id :: rest, i, r1, r2 =>
    if rest = [] ∨ r1.w ≤ cutoff ∨ r1.h ≤ cutoff then
      some [(id, if i % 2 = 0 then { r1 with w := r1.w + r2.w }
                 else { r1 with h := r1.h + r2.h })]
    else
      (if i % 2 = 0 then r2.split_at_height_perc ratio
       else r2.split_at_width_perc ratio).bind fun p =>
        (fibLoop cutoff ratio rest (i + 1) p.1 p.2).map fun ps => (id, r1) :: ps

/-- Fibonacci::layout (source lines 89-124): split the full rect at
width-fraction `ratio`, then run the subdivision loop.  `none` stands for
the panic of the `.expect(..)` calls. -/
def Fibonacci.layout (f : Fibonacci) (l : List Xid) (r : Rect) :
    Option (Fibonacci × Option Unit × List (Xid × Rect)) :=
  (r.split_at_width_perc f.ratio).bind fun p =>
    (fibLoop f.cutoff f.ratio l 0 p.1 p.2).map fun ps => (f, none, ps)

/-- Fibonacci::handle_message (source lines 126-140). -/
def Fibonacci.handle_message (f : Fibonacci) (m : Message) : Fibonacci × Option Unit :=
  match m with
  | Message.expandMain =>
    let r := f.ratio + f.ratio_step
    ({ f with ratio := if r > 1 then 1 else r }, none)
  | Message.shrinkMain =>
    let r := f.ratio - f.ratio_step
    ({ f with ratio := if r < 0 then 0 else r }, none)
  | Message.other _ => (f, none)

/-- Folding a sequence of messages through Fibonacci::handle_message. -/
def Fibonacci.run (f : Fibonacci) (ms : List Message) : Fibonacci :=
  ms.foldl (fun g m => (g.handle_message m).1) f

/-- Match arms of Tatami::layout (source lines 225-273), one per visible
client count `n`; `ap` is the `apply` closure (zip with the collection) and
`split_main` the main/side split result.  The final arm is the source
`unreachable` branch (indeed unreachable, as the caller passes
`min l.length 6`). -/
def tatamiPositions (ap : List Rect → List (Xid × Rect)) (split_main : Option (Rect × Rect))
    (r : Rect) : Nat → Option (List (Xid × Rect))
  | 0 => some []
  | 1 => some (ap [r])
  | 2 => split_main.map fun (p : Rect × Rect) => ap [p.1, p.2]
  | 3 => split_main.map fun (p : Rect × Rect) =>
    let r1 := p.1
    let q := p.2.split_at_mid_height
    let r2 := q.1
    let r3 := q.2
    ap [r1, r2, r3]
  | 4 => split_main.map fun (p : Rect × Rect) =>
    let r1 := p.1
    let q := p.2.split_at_mid_height
    let r4 := q.2
    let q2 := q.1.split_at_mid_width
    let r2 := q2.1
    let r3 := q2.2
    ap [r1, r2, r3, r4]
  | 5 => split_main.map fun (p : Rect × Rect) =>
    let r1 := p.1
    let rows := p.2.as_rows 4
    let r2 := rows.getD 0 (Rect.mk 0 0 0 0)
    let rmid0 := rows.getD 1 (Rect.mk 0 0 0 0)
    let r5 := rows.getD 3 (Rect.mk 0 0 0 0)
    let rmid := { rmid0 with h := rmid0.h + (rows.getD 2 (Rect.mk 0 0 0 0)).h }
    let q := rmid.split_at_mid_width
    let r3 := q.1
    let r4 := q.2
    ap [r1, r2, r3, r4, r5]
  | 6 => split_main.map fun (p : Rect × Rect) =>
    let r1 := p.1
    let cols := p.2.as_columns 3
    let hq := r1.h / 4
    let c0 := cols.getD 0 (Rect.mk 0 0 0 0)
    let c1 := cols.getD 1 (Rect.mk 0 0 0 0)
    let c2 := cols.getD 2 (Rect.mk 0 0 0 0)
    let r2 := { c0 with h := c0.h - hq }
    let r4 := { c1 with h := c1.h - 2 * hq, y := c1.y + hq }
    let r5 := { c2 with h := c2.h - hq, y := c2.y + hq }
    let r3 := Rect.mk (r2.x + r2.w) r2.y (r2.w * 2) hq
    let r6 := Rect.mk r2.x (r2.y + r2.h) (r2.w * 2) hq
    ap [r1, r2, r3, r4, r5, r6]
  | _ + 7 => none

/-- Tatami::layout (source lines 216-276): position the first
`min l.length 6` clients according to the fixed template for that count.
The main split takes the absolute width `(r.w as f32 * self.ratio) as u32`
(source line 219), modelled by `f32SplitWidth` with exact binary32
semantics.  `none` stands for the panic of the `.expect(..)` call on the
main split. -/
def Tatami.layout (t : Tatami) (l : List Xid) (r : Rect) :
    Option (Tatami × Option Unit × List (Xid × Rect)) :=
  let apply : List Rect → List (Xid × Rect) := fun rs => l.zip rs
  let split_main : Option (Rect × Rect) := r.split_at_width (f32SplitWidth r.w t.ratio)
  let n := min l.length 6
  (tatamiPositions apply split_main r n).map fun ps => (t, none, ps)

/-- Tatami::handle_message (source lines 278-292). -/
def Tatami.handle_message (t : Tatami) (m : Message) : Tatami × Option Unit :=
  match m with
  | Message.expandMain =>
    let r := t.ratio + t.ratio_step
    ({ t with ratio := if r > 1 then 1 else r }, none)
  | Message.shrinkMain =>
    let r := t.ratio - t.ratio_step
    ({ t with ratio := if r < 0 then 0 else r }, none)
  | Message.other _ => (t, none)

/-- Folding a sequence of messages through Tatami::handle_message. -/
def Tatami.run (t : Tatami) (ms : List Message) : Tatami :=
  ms.foldl (fun u m => (u.handle_message m).1) t

/-! Helper lemmas about the geometry primitives. -/

lemma fracOf_eval (n : Nat) (p : ℚ) (k : Nat) (h : Int.floor ((n : ℚ) * p) = (k : ℤ)) :
    fracOf n p = k := by
  unfold fracOf
  rw [h]
  exact Int.toNat_natCast k

lemma fracOf_le (n : Nat) (p : ℚ) (hp : p ≤ 1) : fracOf n p ≤ n := by
  unfold fracOf
  have hmul : (n : ℚ) * p ≤ (n : ℚ) := mul_le_of_le_one_right (by positivity) hp
  have hfl : Int.floor ((n : ℚ) * p) ≤ Int.floor ((n : ℚ)) := Int.floor_le_floor hmul
  rw [Int.floor_natCast] at hfl
  omega

lemma split_at_width_eq (r : Rect) (k : Nat) (hk : k ≤ r.w) :
    r.split_at_width k =
      some (Rect.mk r.x r.y k r.h, Rect.mk (r.x + k) r.y (r.w - k) r.h) := by
  simp [Rect.split_at_width, hk]

lemma split_at_height_eq (r : Rect) (k : Nat) (hk : k ≤ r.h) :
    r.split_at_height k =
      some (Rect.mk r.x r.y r.w k, Rect.mk r.x (r.y + k) r.w (r.h - k)) := by
  simp [Rect.split_at_height, hk]

lemma split_at_width_perc_eq (r : Rect) (p : ℚ) (h0 : 0 ≤ p) (h1 : p ≤ 1) :
    r.split_at_width_perc p =
      some (Rect.mk r.x r.y (fracOf r.w p) r.h,
        Rect.mk (r.x + fracOf r.w p) r.y (r.w - fracOf r.w p) r.h) := by
  unfold Rect.split_at_width_perc
  rw [if_pos ⟨h0, h1⟩]
  exact split_at_width_eq r _ (fracOf_le _ _ h1)

lemma split_at_height_perc_eq (r : Rect) (p : ℚ) (h0 : 0 ≤ p) (h1 : p ≤ 1) :
    r.split_at_height_perc p =
      some (Rect.mk r.x r.y r.w (fracOf r.h p),
        Rect.mk r.x (r.y + fracOf r.h p) r.w (r.h - fracOf r.h p)) := by
  unfold Rect.split_at_height_perc
  rw [if_pos ⟨h0, h1⟩]
  exact split_at_height_eq r _ (fracOf_le _ _ h1)

/-! Evaluation lemmas for the binary32 model of the main-split cast. -/

lemma roundGrid_int (q u : ℚ) (n : ℤ) (hqu : q = (n : ℚ) * u) (hu : u ≠ 0) :
    roundGrid q u = q := by
  unfold roundGrid
  have hdiv : q / u = (n : ℚ) := by
    rw [hqu]
    field_simp
  rw [hdiv, Int.floor_intCast]
  rw [if_pos (by norm_num)]
  exact hqu.symm

lemma roundGrid_up (q u : ℚ) (n : ℤ) (hn : ⌊q / u⌋ = n) (hf : 1/2 < q / u - (n : ℚ)) :
    roundGrid q u = ((n : ℚ) + 1) * u := by
  unfold roundGrid
  rw [hn, if_neg (by linarith), if_pos hf]

lemma rnd32_pos_eval (q v u : ℚ) (e : ℤ) (h1 : (2:ℚ) ^ e ≤ q) (h2 : q < (2:ℚ) ^ (e + 1))
    (he : -126 ≤ e) (hu : u = (2:ℚ) ^ (e - 23)) (hv : roundGrid q u = v) : rnd32 q = v := by
  have hq : 0 < q := lt_of_lt_of_le (zpow_pos (by norm_num) e) h1
  have hlog : Int.log 2 q = e := by
    have h1n : ((2:ℕ):ℚ) ^ e ≤ q := by exact_mod_cast h1
    have h2n : q < ((2:ℕ):ℚ) ^ (e + 1) := by exact_mod_cast h2
    have hle : e ≤ Int.log 2 q := (Int.zpow_le_iff_le_log (by norm_num) hq).mp h1n
    have hlt : Int.log 2 q < e + 1 := (Int.lt_zpow_iff_log_lt (by norm_num) hq).mp h2n
    omega
  unfold rnd32
  rw [if_neg (ne_of_gt hq), if_neg (not_lt.mpr hq.le), abs_of_pos hq, hlog,
    if_neg (by omega : ¬ (e ≤ -127)), ← hu, one_mul]
  exact hv

lemma f32_to_u32_eval (q : ℚ) (k : Nat) (hk : ⌊q⌋ = (k : ℤ)) (hle : k ≤ 4294967295) :
    f32_to_u32 q = k := by
  unfold f32_to_u32
  rw [hk, Int.toNat_natCast]
  omega

lemma rnd32_100 : rnd32 ((100 : ℕ) : ℚ) = 100 := by
  refine rnd32_pos_eval _ _ ((2:ℚ) ^ ((6:ℤ) - 23)) 6 (by norm_num) (by norm_num) (by norm_num)
    rfl ?_
  exact roundGrid_int _ _ 13107200 (by norm_num) (by positivity)

lemma rnd32_60 : rnd32 (60 : ℚ) = 60 := by
  refine rnd32_pos_eval _ _ ((2:ℚ) ^ ((5:ℤ) - 23)) 5 (by norm_num) (by norm_num) (by norm_num)
    rfl ?_
  exact roundGrid_int _ _ 15728640 (by norm_num) (by positivity)

lemma rnd32_33554435 : rnd32 ((33554435 : ℕ) : ℚ) = 33554436 := by
  refine rnd32_pos_eval _ _ ((2:ℚ) ^ ((25:ℤ) - 23)) 25 (by norm_num) (by norm_num)
    (by norm_num) rfl ?_
  have h := roundGrid_up ((33554435 : ℕ) : ℚ) ((2:ℚ) ^ ((25:ℤ) - 23)) 8388608 (by norm_num)
    (by norm_num)
  rw [h]
  norm_num

lemma rnd32_33554436 : rnd32 (33554436 : ℚ) = 33554436 := by
  refine rnd32_pos_eval _ _ ((2:ℚ) ^ ((25:ℤ) - 23)) 25 (by norm_num) (by norm_num)
    (by norm_num) rfl ?_
  exact roundGrid_int _ _ 8388609 (by norm_num) (by positivity)

lemma f32SplitWidth_100 : f32SplitWidth 100 (3/5) = 60 := by
  unfold f32SplitWidth
  rw [rnd32_100]
  rw [show (100 : ℚ) * (3/5) = 60 by norm_num]
  rw [rnd32_60]
  exact f32_to_u32_eval _ 60 (by norm_num) (by norm_num)

lemma f32SplitWidth_33554435 : f32SplitWidth 33554435 1 = 33554436 := by
  unfold f32SplitWidth
  rw [rnd32_33554435, mul_one, rnd32_33554436]
  exact f32_to_u32_eval _ 33554436 (by norm_num) (by norm_num)

/-! Helper lemmas about ratio clamping in handle_message. -/

lemma fib_step_ratio (f : Fibonacci) (m : Message) (h0 : 0 ≤ f.ratio) (h1 : f.ratio ≤ 1)
    (hs : 0 ≤ f.ratio_step) :
    0 ≤ (f.handle_message m).1.ratio ∧ (f.handle_message m).1.ratio ≤ 1 ∧
      (f.handle_message m).1.ratio_step = f.ratio_step := by
  cases m with
  | expandMain =>
    simp only [Fibonacci.handle_message]
    split_ifs with h
    · exact ⟨zero_le_one, le_refl 1, trivial⟩
    · exact ⟨by linarith, by linarith, trivial⟩
  | shrinkMain =>
    simp only [Fibonacci.handle_message]
    split_ifs with h
    · exact ⟨le_refl 0, zero_le_one, trivial⟩
    · exact ⟨by linarith, by linarith, trivial⟩
  | other k => exact ⟨h0, h1, rfl⟩

lemma tatami_step_ratio (t : Tatami) (m : Message) (h0 : 0 ≤ t.ratio) (h1 : t.ratio ≤ 1)
    (hs : 0 ≤ t.ratio_step) :
    0 ≤ (t.handle_message m).1.ratio ∧ (t.handle_message m).1.ratio ≤ 1 ∧
      (t.handle_message m).1.ratio_step = t.ratio_step := by
  cases m with
  | expandMain =>
    simp only [Tatami.handle_message]
    split_ifs with h
    · exact ⟨zero_le_one, le_refl 1, trivial⟩
    · exact ⟨by linarith, by linarith, trivial⟩
  | shrinkMain =>
    simp only [Tatami.handle_message]
    split_ifs with h
    · exact ⟨le_refl 0, zero_le_one, trivial⟩
    · exact ⟨by linarith, by linarith, trivial⟩
  | other k => exact ⟨h0, h1, rfl⟩

lemma fib_run_ratio (ms : List Message) :
    ∀ f : Fibonacci, 0 ≤ f.ratio → f.ratio ≤ 1 → 0 ≤ f.ratio_step →
      0 ≤ (f.run ms).ratio ∧ (f.run ms).ratio ≤ 1 := by
  induction ms with
  | nil => exact fun f h0 h1 _ => ⟨h0, h1⟩
  | cons m ms ih =>
    intro f h0 h1 hs
    obtain ⟨g0, g1, gs⟩ := fib_step_ratio f m h0 h1 hs
    have hrw : Fibonacci.run f (m :: ms) = Fibonacci.run (f.handle_message m).1 ms := rfl
    rw [hrw]
    exact ih _ g0 g1 (gs ▸ hs)

lemma tatami_run_ratio (ms : List Message) :
    ∀ t : Tatami, 0 ≤ t.ratio → t.ratio ≤ 1 → 0 ≤ t.ratio_step →
      0 ≤ (t.run ms).ratio ∧ (t.run ms).ratio ≤ 1 := by
  induction ms with
  | nil => exact fun t h0 h1 _ => ⟨h0, h1⟩
  | cons m ms ih =>
    intro t h0 h1 hs
    obtain ⟨g0, g1, gs⟩ := tatami_step_ratio t m h0 h1 hs
    have hrw : Tatami.run t (m :: ms) = Tatami.run (t.handle_message m).1 ms := rfl
    rw [hrw]
    exact ih _ g0 g1 (gs ▸ hs)

/-- C2: as literally stated the claim is false.  A Fibonacci state may carry a
negative ratio_step (the public constructor accepts any value); starting at
the in-range ratio 0, one ExpandMain message adds the negative step and the
upper-bound clamp does not fire, leaving the ratio at -1, outside [0,1]. -/
theorem ratio_bound_counterexample :
    (0:ℚ) ≤ (Fibonacci.mk 40 0 (-1)).ratio ∧ (Fibonacci.mk 40 0 (-1)).ratio ≤ 1 ∧
      ((Fibonacci.mk 40 0 (-1)).run [Message.expandMain]).ratio < 0 := by
  norm_num [Fibonacci.run, Fibonacci.handle_message]

/-- C2 (amended): for every Fibonacci or Tatami state whose ratio starts in
[0,1] and whose ratio_step is non-negative, after any sequence of ExpandMain
and ShrinkMain messages (and arbitrary unrecognized ones, which are no-ops)
handled by handle_message, the ratio remains in [0,1]. -/
theorem ratio_bound_amended (f : Fibonacci) (t : Tatami) (ms : List Message)
    (hf0 : 0 ≤ f.ratio) (hf1 : f.ratio ≤ 1) (hfs : 0 ≤ f.ratio_step)
    (ht0 : 0 ≤ t.ratio) (ht1 : t.ratio ≤ 1) (hts : 0 ≤ t.ratio_step) :
    (0 ≤ (f.run ms).ratio ∧ (f.run ms).ratio ≤ 1) ∧
      (0 ≤ (t.run ms).ratio ∧ (t.run ms).ratio ≤ 1) :=
  ⟨fib_run_ratio ms f hf0 hf1 hfs, tatami_run_ratio ms t ht0 ht1 hts⟩

/-- Witness for C2 (amended) at the default states and a concrete message
sequence. -/
theorem ratio_bound_amended_witness :
    ((0:ℚ) ≤ Fibonacci.default.ratio ∧ Fibonacci.default.ratio ≤ 1 ∧
        (0:ℚ) ≤ Fibonacci.default.ratio_step) ∧
    ((0:ℚ) ≤ Tatami.default.ratio ∧ Tatami.default.ratio ≤ 1 ∧
        (0:ℚ) ≤ Tatami.default.ratio_step) ∧
    ((0 ≤ (Fibonacci.default.run [Message.expandMain, Message.shrinkMain]).ratio ∧
        (Fibonacci.default.run [Message.expandMain, Message.shrinkMain]).ratio ≤ 1) ∧
      (0 ≤ (Tatami.default.run [Message.expandMain, Message.shrinkMain]).ratio ∧
        (Tatami.default.run [Message.expandMain, Message.shrinkMain]).ratio ≤ 1)) := by
  have hf0 : (0:ℚ) ≤ Fibonacci.default.ratio := by norm_num [Fibonacci.default]
  have hf1 : Fibonacci.default.ratio ≤ 1 := by norm_num [Fibonacci.default]
  have hfs : (0:ℚ) ≤ Fibonacci.default.ratio_step := by norm_num [Fibonacci.default]
  have ht0 : (0:ℚ) ≤ Tatami.default.ratio := by norm_num [Tatami.default]
  have ht1 : Tatami.default.ratio ≤ 1 := by norm_num [Tatami.default]
  have hts : (0:ℚ) ≤ Tatami.default.ratio_step := by norm_num [Tatami.default]
  exact ⟨⟨hf0, hf1, hfs⟩, ⟨ht0, ht1, hts⟩,
    ratio_bound_amended Fibonacci.default Tatami.default
      [Message.expandMain, Message.shrinkMain] hf0 hf1 hfs ht0 ht1 hts⟩

/-- C6: with the default Fibonacci state (cutoff 40, ratio 1/2, step 1/10),
the collection [0,1,2] and the Rectangle 0,0,100,100, layout returns exactly
the placements 0 at 0,0,50,100 then 1 at 50,0,50,50 then 2 at 50,50,50,50,
in that order, with no replacement layout and unchanged state. -/
theorem fibonacci_concrete_three :
    Fibonacci.default.layout [0, 1, 2] (Rect.mk 0 0 100 100) =
      some (Fibonacci.default, none,
        [(0, Rect.mk 0 0 50 100), (1, Rect.mk 50 0 50 50), (2, Rect.mk 50 50 50 50)]) := by
  have h1 : fracOf 100 (Fibonacci.default.ratio) = 50 :=
    fracOf_eval _ _ _ (by norm_num [Fibonacci.default])
  have h2 : fracOf 50 (Fibonacci.default.ratio) = 25 :=
    fracOf_eval _ _ _ (by norm_num [Fibonacci.default])
  have h3 : (0:ℚ) ≤ Fibonacci.default.ratio ∧ Fibonacci.default.ratio ≤ 1 := by
    norm_num [Fibonacci.default]
  have hc : Fibonacci.default.cutoff = 40 := rfl
  simp [Fibonacci.layout, fibLoop, Rect.split_at_width_perc, Rect.split_at_height_perc,
    Rect.split_at_width, Rect.split_at_height, hc, h1, h2, h3.1, h3.2]

/-- C7: a message of any unrecognized kind leaves every state field of
Fibonacci and of Tatami unchanged and returns no replacement layout. -/
theorem unrecognized_message_noop (f : Fibonacci) (t : Tatami) (k : Nat) :
    f.handle_message (Message.other k) = (f, none) ∧
      t.handle_message (Message.other k) = (t, none) :=
  ⟨rfl, rfl⟩

/-- C8: Fibonacci::layout and Tatami::layout are deterministic; on layouts in
identical state, with identical collections and identical Rectangles, the
calls return identical results (placements and replacement alike). -/
theorem layout_deterministic (f g : Fibonacci) (t u : Tatami) (lf lg lt lu : List Xid)
    (rf rg rt ru : Rect) (hfg : f = g) (hlf : lf = lg) (hrf : rf = rg)
    (htu : t = u) (hlt : lt = lu) (hrt : rt = ru) :
    f.layout lf rf = g.layout lg rg ∧ t.layout lt rt = u.layout lu ru := by
  subst hfg hlf hrf htu hlt hrt
  exact ⟨rfl, rfl⟩

/-- Witness for C8 at concrete equal inputs. -/
theorem layout_deterministic_witness :
    Fibonacci.default.layout [0] (Rect.mk 0 0 10 10) =
        Fibonacci.default.layout [0] (Rect.mk 0 0 10 10) ∧
      Tatami.default.layout [0] (Rect.mk 0 0 10 10) =
        Tatami.default.layout [0] (Rect.mk 0 0 10 10) :=
  layout_deterministic Fibonacci.default Fibonacci.default Tatami.default Tatami.default
    [0] [0] [0] [0] (Rect.mk 0 0 10 10) (Rect.mk 0 0 10 10) (Rect.mk 0 0 10 10)
    (Rect.mk 0 0 10 10) rfl rfl rfl rfl rfl rfl

/-- C9: although layout takes the receiver mutably, a call leaves the state
fields of the layout unchanged: every successful result carries a post-state
equal to the initial one (only handle_message mutates state). -/
theorem layout_preserves_state (f : Fibonacci) (t : Tatami) (lf lt : List Xid) (rf rt : Rect)
    (outf : Fibonacci × Option Unit × List (Xid × Rect))
    (outt : Tatami × Option Unit × List (Xid × Rect))
    (hf : f.layout lf rf = some outf) (ht : t.layout lt rt = some outt) :
    outf.1 = f ∧ outt.1 = t := by
  constructor
  · unfold Fibonacci.layout at hf
    rcases Option.bind_eq_some.mp hf with ⟨p, hp, hmap⟩
    rcases Option.map_eq_some'.mp hmap with ⟨ps, hps, heq⟩
    rw [← heq]
  · simp only [Tatami.layout] at ht
    rcases Option.map_eq_some'.mp ht with ⟨ps, hps, heq⟩
    rw [← heq]

/-- Witness for C9 at concrete inputs. -/
theorem layout_preserves_state_witness :
    (Fibonacci.default.layout [0] (Rect.mk 0 0 10 10) =
        some (Fibonacci.default, none, [(0, Rect.mk 0 0 10 10)])) ∧
    (Tatami.default.layout [0] (Rect.mk 0 0 10 10) =
        some (Tatami.default, none, [(0, Rect.mk 0 0 10 10)])) ∧
    (Fibonacci.default, (none : Option Unit), [((0:Xid), Rect.mk 0 0 10 10)]).1 =
        Fibonacci.default ∧
    (Tatami.default, (none : Option Unit), [((0:Xid), Rect.mk 0 0 10 10)]).1 =
        Tatami.default := by
  have h1 : fracOf 10 (Fibonacci.default.ratio) = 5 :=
    fracOf_eval _ _ _ (by norm_num [Fibonacci.default])
  have h3 : (0:ℚ) ≤ Fibonacci.default.ratio ∧ Fibonacci.default.ratio ≤ 1 := by
    norm_num [Fibonacci.default]
  have hf : Fibonacci.default.layout [0] (Rect.mk 0 0 10 10) =
      some (Fibonacci.default, none, [(0, Rect.mk 0 0 10 10)]) := by
    simp [Fibonacci.layout, fibLoop, Rect.split_at_width_perc, Rect.split_at_width,
      h1, h3.1, h3.2]
  have ht : Tatami.default.layout [0] (Rect.mk 0 0 10 10) =
      some (Tatami.default, none, [(0, Rect.mk 0 0 10 10)]) := by
    simp [Tatami.layout, tatamiPositions]
  exact ⟨hf, ht,
    (layout_preserves_state Fibonacci.default Tatami.default [0] [0]
      (Rect.mk 0 0 10 10) (Rect.mk 0 0 10 10) _ _ hf ht).1,
    (layout_preserves_state Fibonacci.default Tatami.default [0] [0]
      (Rect.mk 0 0 10 10) (Rect.mk 0 0 10 10) _ _ hf ht).2⟩

/-- C10: handle_message on Fibonacci and on Tatami returns no replacement
layout for any message, recognized or not. -/
theorem handle_message_returns_none (f : Fibonacci) (t : Tatami) (m : Message) :
    (f.handle_message m).2 = none ∧ (t.handle_message m).2 = none := by
  cases m <;> exact ⟨rfl, rfl⟩

/-! Adjacency of split results, used for the Fibonacci partition argument. -/

/-- Horizontal adjacency: b sits immediately right of a with the same
vertical extent, so widening a by the width of b yields their exact union. -/
def HAdj (a b : Rect) : Prop := b.x = a.x + a.w ∧ b.y = a.y ∧ b.h = a.h

/-- Vertical adjacency: b sits immediately below a with the same horizontal
extent, so growing the height of a by that of b yields their exact union. -/
def VAdj (a b : Rect) : Prop := b.x = a.x ∧ b.y = a.y + a.h ∧ b.w = a.w

lemma hadj_contains {a b : Rect} (hab : HAdj a b) (px py : Nat) :
    (Rect.mk a.x a.y (a.w + b.w) a.h).containsP px py ↔
      a.containsP px py ∨ b.containsP px py := by
  obtain ⟨e1, e2, e3⟩ := hab
  simp only [Rect.containsP]
  omega

lemma vadj_contains {a b : Rect} (hab : VAdj a b) (px py : Nat) :
    (Rect.mk a.x a.y a.w (a.h + b.h)).containsP px py ↔
      a.containsP px py ∨ b.containsP px py := by
  obtain ⟨e1, e2, e3⟩ := hab
  simp only [Rect.containsP]
  omega

lemma hadj_disjoint {a b : Rect} (hab : HAdj a b) (px py : Nat) :
    a.containsP px py → ¬ b.containsP px py := by
  obtain ⟨e1, e2, e3⟩ := hab
  simp only [Rect.containsP]
  omega

lemma vadj_disjoint {a b : Rect} (hab : VAdj a b) (px py : Nat) :
    a.containsP px py → ¬ b.containsP px py := by
  obtain ⟨e1, e2, e3⟩ := hab
  simp only [Rect.containsP]
  omega

/-- Invariant of the Fibonacci subdivision loop: from a pair of adjacent
regions (horizontally adjacent at even index, vertically at odd, as
maintained by the alternating splits), the loop succeeds and its placements
exactly partition the union of the pair, with pairwise distinct identifiers
drawn from the collection. -/
lemma fibLoop_spec (cutoff : Nat) (ratio : ℚ) (h0 : 0 ≤ ratio) (h1 : ratio ≤ 1) :
    ∀ l : List Xid, l ≠ [] → l.Nodup →
      ∀ (i : Nat) (r1 r2 : Rect),
        (if i % 2 = 0 then HAdj r1 r2 else VAdj r1 r2) →
        ∃ ps, fibLoop cutoff ratio l i r1 r2 = some ps ∧
          (∀ px py,
            (if i % 2 = 0 then Rect.mk r1.x r1.y (r1.w + r2.w) r1.h
              else Rect.mk r1.x r1.y r1.w (r1.h + r2.h)).containsP px py ↔
              ∃ q ∈ ps, (q.2).containsP px py) ∧
          List.Pairwise
            (fun q q2 => ∀ px py, (q.2).containsP px py → ¬ (q2.2).containsP px py) ps ∧
          (ps.map Prod.fst).Nodup ∧
          (∀ a ∈ ps.map Prod.fst, a ∈ l) := by
  intro l
  induction l with
  | nil => intro hne; exact absurd rfl hne
  | cons id rest ih =>
    intro _ hnd i r1 r2 hadj
    by_cases hcut : rest = [] ∨ r1.w ≤ cutoff ∨ r1.h ≤ cutoff
    · refine ⟨[(id, if i % 2 = 0 then { r1 with w := r1.w + r2.w }
          else { r1 with h := r1.h + r2.h })], ?_, ?_, ?_, ?_, ?_⟩
      · simp only [fibLoop]
        rw [if_pos hcut]
      · intro px py
        by_cases hi : i % 2 = 0 <;> simp [hi]
      · exact List.pairwise_singleton _ _
      · simp
      · intro a ha
        simp only [List.map_cons, List.map_nil, List.mem_singleton] at ha
        subst ha
        exact List.mem_cons_self _ _
    · have hrest : rest ≠ [] := fun h => hcut (Or.inl h)
      by_cases hi : i % 2 = 0
      · -- even index: the remainder is split by height, giving a vertically
        -- adjacent pair for the next (odd) index
        rw [if_pos hi] at hadj
        have hk : fracOf r2.h ratio ≤ r2.h := fracOf_le _ _ h1
        have hstep : fibLoop cutoff ratio (id :: rest) i r1 r2 =
            (fibLoop cutoff ratio rest (i + 1)
              (Rect.mk r2.x r2.y r2.w (fracOf r2.h ratio))
              (Rect.mk r2.x (r2.y + fracOf r2.h ratio) r2.w (r2.h - fracOf r2.h ratio))).map
              (fun ps => (id, r1) :: ps) := by
          simp only [fibLoop]
          rw [if_neg hcut, if_pos hi, split_at_height_perc_eq r2 ratio h0 h1]
          rfl
        have hi1 : ¬ ((i + 1) % 2 = 0) := by omega
        obtain ⟨ps, hps, hcov, hpair, hndp, hsub⟩ :=
          ih hrest (List.Nodup.of_cons hnd) (i + 1)
            (Rect.mk r2.x r2.y r2.w (fracOf r2.h ratio))
            (Rect.mk r2.x (r2.y + fracOf r2.h ratio) r2.w (r2.h - fracOf r2.h ratio))
            (by rw [if_neg hi1]; exact ⟨rfl, rfl, rfl⟩)
        have hcovR : ∀ px py, r2.containsP px py ↔ ∃ q ∈ ps, (q.2).containsP px py := by
          intro px py
          have h := hcov px py
          rw [if_neg hi1] at h
          have hglue : (Rect.mk r2.x r2.y r2.w
              (fracOf r2.h ratio + (r2.h - fracOf r2.h ratio))).containsP px py ↔
              r2.containsP px py := by
            simp only [Rect.containsP]
            omega
          exact hglue.symm.trans h
        refine ⟨(id, r1) :: ps, ?_, ?_, ?_, ?_, ?_⟩
        · rw [hstep, hps]
          rfl
        · intro px py
          rw [if_pos hi, hadj_contains hadj px py]
          constructor
          · rintro (h | h)
            · exact ⟨(id, r1), List.mem_cons_self _ _, h⟩
            · obtain ⟨q, hq, hqc⟩ := (hcovR px py).mp h
              exact ⟨q, List.mem_cons_of_mem _ hq, hqc⟩
          · rintro ⟨q, hq, hqc⟩
            rcases List.mem_cons.mp hq with hq | hq
            · subst hq
              exact Or.inl hqc
            · exact Or.inr ((hcovR px py).mpr ⟨q, hq, hqc⟩)
        · rw [List.pairwise_cons]
          refine ⟨?_, hpair⟩
          intro q hq px py hc1 hc2
          exact hadj_disjoint hadj px py hc1 ((hcovR px py).mpr ⟨q, hq, hc2⟩)
        · simp only [List.map_cons, List.nodup_cons]
          exact ⟨fun hmem => (List.nodup_cons.mp hnd).1 (hsub id hmem), hndp⟩
        · intro a ha
          simp only [List.map_cons] at ha
          rcases List.mem_cons.mp ha with h | h
          · subst h
            exact List.mem_cons_self _ _
          · exact List.mem_cons_of_mem _ (hsub a h)
      · -- odd index: the remainder is split by width, giving a horizontally
        -- adjacent pair for the next (even) index
        rw [if_neg hi] at hadj
        have hk : fracOf r2.w ratio ≤ r2.w := fracOf_le _ _ h1
        have hstep : fibLoop cutoff ratio (id :: rest) i r1 r2 =
            (fibLoop cutoff ratio rest (i + 1)
              (Rect.mk r2.x r2.y (fracOf r2.w ratio) r2.h)
              (Rect.mk (r2.x + fracOf r2.w ratio) r2.y (r2.w - fracOf r2.w ratio) r2.h)).map
              (fun ps => (id, r1) :: ps) := by
          simp only [fibLoop]
          rw [if_neg hcut, if_neg hi, split_at_width_perc_eq r2 ratio h0 h1]
          rfl
        have hi1 : (i + 1) % 2 = 0 := by omega
        obtain ⟨ps, hps, hcov, hpair, hndp, hsub⟩ :=
          ih hrest (List.Nodup.of_cons hnd) (i + 1)
            (Rect.mk r2.x r2.y (fracOf r2.w ratio) r2.h)
            (Rect.mk (r2.x + fracOf r2.w ratio) r2.y (r2.w - fracOf r2.w ratio) r2.h)
            (by rw [if_pos hi1]; exact ⟨rfl, rfl, rfl⟩)
        have hcovR : ∀ px py, r2.containsP px py ↔ ∃ q ∈ ps, (q.2).containsP px py := by
          intro px py
          have h := hcov px py
          rw [if_pos hi1] at h
          have hglue : (Rect.mk r2.x r2.y
              (fracOf r2.w ratio + (r2.w - fracOf r2.w ratio)) r2.h).containsP px py ↔
              r2.containsP px py := by
            simp only [Rect.containsP]
            omega
          exact hglue.symm.trans h
        refine ⟨(id, r1) :: ps, ?_, ?_, ?_, ?_, ?_⟩
        · rw [hstep, hps]
          rfl
        · intro px py
          rw [if_neg hi, vadj_contains hadj px py]
          constructor
          · rintro (h | h)
            · exact ⟨(id, r1), List.mem_cons_self _ _, h⟩
            · obtain ⟨q, hq, hqc⟩ := (hcovR px py).mp h
              exact ⟨q, List.mem_cons_of_mem _ hq, hqc⟩
          · rintro ⟨q, hq, hqc⟩
            rcases List.mem_cons.mp hq with hq | hq
            · subst hq
              exact Or.inl hqc
            · exact Or.inr ((hcovR px py).mpr ⟨q, hq, hqc⟩)
        · rw [List.pairwise_cons]
          refine ⟨?_, hpair⟩
          intro q hq px py hc1 hc2
          exact vadj_disjoint hadj px py hc1 ((hcovR px py).mpr ⟨q, hq, hc2⟩)
        · simp only [List.map_cons, List.nodup_cons]
          exact ⟨fun hmem => (List.nodup_cons.mp hnd).1 (hsub id hmem), hndp⟩
        · intro a ha
          simp only [List.map_cons] at ha
          rcases List.mem_cons.mp ha with h | h
          · subst h
            exact List.mem_cons_self _ _
          · exact List.mem_cons_of_mem _ (hsub a h)

/-- C1: for every non-empty ordered collection of (distinct) identifiers and
every Rectangle, with the layout ratio in [0,1] (the range maintained by
handle_message), Fibonacci::layout succeeds and returns placements that are
pairwise non-overlapping, whose union exactly equals the input Rectangle,
and in which each identifier appears at most once. -/
theorem fibonacci_layout_partition (f : Fibonacci) (l : List Xid) (r : Rect)
    (h0 : 0 ≤ f.ratio) (h1 : f.ratio ≤ 1) (hne : l ≠ []) (hnd : l.Nodup) :
    ∃ ps, f.layout l r = some (f, none, ps) ∧
      (∀ px py, r.containsP px py ↔ ∃ q ∈ ps, (q.2).containsP px py) ∧
      List.Pairwise
        (fun q q2 => ∀ px py, (q.2).containsP px py → ¬ (q2.2).containsP px py) ps ∧
      (ps.map Prod.fst).Nodup := by
  have hk : fracOf r.w f.ratio ≤ r.w := fracOf_le _ _ h1
  obtain ⟨ps, hps, hcov, hpair, hndp, hsub⟩ :=
    fibLoop_spec f.cutoff f.ratio h0 h1 l hne hnd 0
      (Rect.mk r.x r.y (fracOf r.w f.ratio) r.h)
      (Rect.mk (r.x + fracOf r.w f.ratio) r.y (r.w - fracOf r.w f.ratio) r.h)
      (by rw [if_pos (by decide : (0:Nat) % 2 = 0)]; exact ⟨rfl, rfl, rfl⟩)
  refine ⟨ps, ?_, ?_, hpair, hndp⟩
  · unfold Fibonacci.layout
    rw [split_at_width_perc_eq r f.ratio h0 h1]
    show (fibLoop f.cutoff f.ratio l 0
        (Rect.mk r.x r.y (fracOf r.w f.ratio) r.h)
        (Rect.mk (r.x + fracOf r.w f.ratio) r.y (r.w - fracOf r.w f.ratio) r.h)).map
        (fun ps => (f, none, ps)) = some (f, none, ps)
    rw [hps]
    rfl
  · intro px py
    have h := hcov px py
    rw [if_pos (by decide : (0:Nat) % 2 = 0)] at h
    have hglue : (Rect.mk r.x r.y (fracOf r.w f.ratio + (r.w - fracOf r.w f.ratio))
        r.h).containsP px py ↔ r.containsP px py := by
      simp only [Rect.containsP]
      omega
    exact hglue.symm.trans h

/-- Witness for C1 at the default state, collection [0,1,2] and the
Rectangle 0,0,100,100. -/
theorem fibonacci_layout_partition_witness :
    ((0:ℚ) ≤ Fibonacci.default.ratio ∧ Fibonacci.default.ratio ≤ 1 ∧
      ([0, 1, 2] : List Xid) ≠ [] ∧ ([0, 1, 2] : List Xid).Nodup) ∧
    (∃ ps, Fibonacci.default.layout [0, 1, 2] (Rect.mk 0 0 100 100) =
        some (Fibonacci.default, none, ps) ∧
      (∀ px py, (Rect.mk 0 0 100 100).containsP px py ↔
        ∃ q ∈ ps, (q.2).containsP px py) ∧
      List.Pairwise
        (fun q q2 => ∀ px py, (q.2).containsP px py → ¬ (q2.2).containsP px py) ps ∧
      (ps.map Prod.fst).Nodup) := by
  have ha : (0:ℚ) ≤ Fibonacci.default.ratio := by norm_num [Fibonacci.default]
  have hb : Fibonacci.default.ratio ≤ 1 := by norm_num [Fibonacci.default]
  have hc : ([0, 1, 2] : List Xid) ≠ [] := by simp
  have hd : ([0, 1, 2] : List Xid).Nodup := by decide
  exact ⟨⟨ha, hb, hc, hd⟩,
    fibonacci_layout_partition Fibonacci.default [0, 1, 2] (Rect.mk 0 0 100 100) ha hb hc hd⟩

/-- C3: the claim states the intent of the code (and of the in-src NOTE
demanding panic-freedom under arbitrary inputs, and of the expect message
"valid split"), but the code violates it.  Ratio exactly 1.0 is reachable
by ExpandMain clamping; at width 33554435 the f32 rounding of the width
(33554435 has no binary32 representation and rounds up to 33554436) makes
the computed main-split width exceed the rectangle width, so the absolute
split fails and the `.expect("valid split")` in Tatami::layout panics.  In
the embedding the call evaluates to `none`, the panic value. -/
theorem tatami_expect_panics :
    ((Tatami.mk (3/5) (1/10)).run
        [Message.expandMain, Message.expandMain, Message.expandMain,
          Message.expandMain]).ratio = 1 ∧
    (Tatami.mk 1 (1/10)).layout [0, 1] (Rect.mk 0 0 33554435 100) = none := by
  constructor
  · norm_num [Tatami.run, Tatami.handle_message]
  · simp [Tatami.layout, tatamiPositions, Rect.split_at_width, f32SplitWidth_33554435]

lemma zip_map_fst {α β : Type} : ∀ (l : List α) (rs : List β),
    (l.zip rs).map Prod.fst = l.take rs.length := by
  intro l
  induction l with
  | nil => intro rs; simp
  | cons a l ih =>
    intro rs
    cases rs with
    | nil => simp
    | cons b rs => simp [ih]

/-- The n = 6 template arm produces a zip of the collection with some list of
exactly six rectangles. -/
lemma tatamiPositions_six_eq (ap : List Rect → List (Xid × Rect)) (p : Rect × Rect)
    (r : Rect) :
    ∃ rs : List Rect, tatamiPositions ap (some p) r 6 = some (ap rs) ∧ rs.length = 6 := by
  exact ⟨_, rfl, rfl⟩

/-- C5: as literally stated the claim is false; the same f32 width-rounding
slip as in C3 makes Tatami::layout panic (returning no placements at all)
at the reachable ratio 1.0, width 33554435 and a collection of length 7. -/
theorem tatami_capacity_counterexample :
    (0:ℚ) ≤ (Tatami.mk 1 (1/10)).ratio ∧ (Tatami.mk 1 (1/10)).ratio ≤ 1 ∧
      6 < ([0, 1, 2, 3, 4, 5, 6] : List Xid).length ∧
      (Tatami.mk 1 (1/10)).layout [0, 1, 2, 3, 4, 5, 6] (Rect.mk 0 0 33554435 100) =
        none := by
  refine ⟨by norm_num, by norm_num, by simp, ?_⟩
  simp [Tatami.layout, tatamiPositions, Rect.split_at_width, f32SplitWidth_33554435]

/-- C5 (amended): for every collection of length L > 6 and ratio in [0,1],
whenever the main split succeeds (the f32-computed main width does not
exceed the rect width; f32 rounding can violate this only for widths of
2^24 pixels or more), Tatami::layout returns exactly 6 placements whose
identifiers are the first 6 of the collection in iteration order, so the
omitted identifiers are exactly the last L - 6; for the empty collection
the result is empty unconditionally. -/
theorem tatami_capacity (t : Tatami) (l : List Xid) (r : Rect)
    (h0 : 0 ≤ t.ratio) (h1 : t.ratio ≤ 1) (hl : 6 < l.length)
    (hk : f32SplitWidth r.w t.ratio ≤ r.w) :
    (∃ ps, t.layout l r = some (t, none, ps) ∧ ps.length = 6 ∧
      ps.map Prod.fst = l.take 6) ∧
    t.layout [] r = some (t, none, []) := by
  constructor
  · have hmin : min l.length 6 = 6 := by omega
    obtain ⟨rs, hrs, hlen⟩ := tatamiPositions_six_eq (fun xs => l.zip xs)
      (Rect.mk r.x r.y (f32SplitWidth r.w t.ratio) r.h,
        Rect.mk (r.x + f32SplitWidth r.w t.ratio) r.y
          (r.w - f32SplitWidth r.w t.ratio) r.h) r
    refine ⟨l.zip rs, ?_, ?_, ?_⟩
    · simp only [Tatami.layout, hmin]
      rw [split_at_width_eq r _ hk, hrs]
      rfl
    · rw [List.length_zip, hlen]
      omega
    · rw [zip_map_fst, hlen]
  · rfl

/-- C4: as literally stated the claim is false.  With 4 visible members the
code gives the whole bottom row of the side region to member 3 and splits
the top row into two columns for members 1 and 2; the claim has the two rows
the other way around.  At ratio 3/5 on Rectangle 0,0,100,100 with members
0,1,2,3 the code yields member 1 at 60,0,20,50, member 2 at 80,0,20,50 and
member 3 at 60,50,40,50, not the claimed assignment. -/
theorem tatami_four_counterexample :
    Tatami.default.layout [0, 1, 2, 3] (Rect.mk 0 0 100 100) =
      some (Tatami.default, none,
        [(0, Rect.mk 0 0 60 100), (1, Rect.mk 60 0 20 50),
          (2, Rect.mk 80 0 20 50), (3, Rect.mk 60 50 40 50)]) ∧
    Tatami.default.layout [0, 1, 2, 3] (Rect.mk 0 0 100 100) ≠
      some (Tatami.default, none,
        [(0, Rect.mk 0 0 60 100), (1, Rect.mk 60 0 40 50),
          (2, Rect.mk 60 50 20 50), (3, Rect.mk 80 50 20 50)]) := by
  have h1 : f32SplitWidth 100 Tatami.default.ratio = 60 := f32SplitWidth_100
  have h : Tatami.default.layout [0, 1, 2, 3] (Rect.mk 0 0 100 100) =
      some (Tatami.default, none,
        [(0, Rect.mk 0 0 60 100), (1, Rect.mk 60 0 20 50),
          (2, Rect.mk 80 0 20 50), (3, Rect.mk 60 50 40 50)]) := by
    simp [Tatami.layout, tatamiPositions, Rect.split_at_width, Rect.split_at_mid_height,
      Rect.split_at_mid_width, h1]
  refine ⟨h, ?_⟩
  rw [h]
  simp

/-- C4 (amended): in Tatami::layout with exactly 4 visible members (ratio in
[0,1]) and a successful main split (the f32-computed main width within the
rect width), the side region is split into two equal-height rows; the top
row is split into two equal-width columns assigned to members 1 and 2
(0-indexed), and the bottom row is assigned whole to member 3. -/
theorem tatami_four_amended (t : Tatami) (a b c d : Xid) (r : Rect)
    (h0 : 0 ≤ t.ratio) (h1 : t.ratio ≤ 1) (hk : f32SplitWidth r.w t.ratio ≤ r.w) :
    t.layout [a, b, c, d] r = some (t, none,
      [(a, Rect.mk r.x r.y (f32SplitWidth r.w t.ratio) r.h),
        (b, Rect.mk (r.x + f32SplitWidth r.w t.ratio) r.y
          ((r.w - f32SplitWidth r.w t.ratio) / 2) (r.h / 2)),
        (c, Rect.mk (r.x + f32SplitWidth r.w t.ratio + (r.w - f32SplitWidth r.w t.ratio) / 2)
          r.y (r.w - f32SplitWidth r.w t.ratio - (r.w - f32SplitWidth r.w t.ratio) / 2)
          (r.h / 2)),
        (d, Rect.mk (r.x + f32SplitWidth r.w t.ratio) (r.y + r.h / 2)
          (r.w - f32SplitWidth r.w t.ratio) (r.h - r.h / 2))]) := by
  have hsm := split_at_width_eq r (f32SplitWidth r.w t.ratio) hk
  have hmin : min ([a, b, c, d] : List Xid).length 6 = 4 := by simp
  simp only [Tatami.layout, hmin]
  rw [hsm]
  simp [tatamiPositions, Rect.split_at_mid_height, Rect.split_at_mid_width]

/-- Witness for C4 (amended) at the default state, members 0,1,2,3 and the
Rectangle 0,0,100,100. -/
theorem tatami_four_amended_witness :
    ((0:ℚ) ≤ Tatami.default.ratio ∧ Tatami.default.ratio ≤ 1 ∧
      f32SplitWidth 100 Tatami.default.ratio ≤ 100) ∧
    Tatami.default.layout [0, 1, 2, 3] (Rect.mk 0 0 100 100) =
      some (Tatami.default, none,
        [(0, Rect.mk 0 0 60 100), (1, Rect.mk 60 0 20 50),
          (2, Rect.mk 80 0 20 50), (3, Rect.mk 60 50 40 50)]) := by
  have h0 : (0:ℚ) ≤ Tatami.default.ratio := by norm_num [Tatami.default]
  have h1 : Tatami.default.ratio ≤ 1 := by norm_num [Tatami.default]
  have hfr : f32SplitWidth 100 Tatami.default.ratio = 60 := f32SplitWidth_100
  have hk : f32SplitWidth 100 Tatami.default.ratio ≤ 100 := by
    rw [hfr]
    norm_num
  refine ⟨⟨h0, h1, hk⟩, ?_⟩
  rw [tatami_four_amended Tatami.default 0 1 2 3 (Rect.mk 0 0 100 100) h0 h1 hk]
  simp [hfr]

/-- Witness for C5 (amended) at the default state, a collection of length 7
and the Rectangle 0,0,100,100. -/
theorem tatami_capacity_witness :
    ((0:ℚ) ≤ Tatami.default.ratio ∧ Tatami.default.ratio ≤ 1 ∧
      6 < ([0, 1, 2, 3, 4, 5, 6] : List Xid).length ∧
      f32SplitWidth 100 Tatami.default.ratio ≤ 100) ∧
    ((∃ ps, Tatami.default.layout [0, 1, 2, 3, 4, 5, 6] (Rect.mk 0 0 100 100) =
        some (Tatami.default, none, ps) ∧ ps.length = 6 ∧
        ps.map Prod.fst = ([0, 1, 2, 3, 4, 5, 6] : List Xid).take 6) ∧
      Tatami.default.layout [] (Rect.mk 0 0 100 100) = some (Tatami.default, none, [])) := by
  have h0 : (0:ℚ) ≤ Tatami.default.ratio := by norm_num [Tatami.default]
  have h1 : Tatami.default.ratio ≤ 1 := by norm_num [Tatami.default]
  have hl : 6 < ([0, 1, 2, 3, 4, 5, 6] : List Xid).length := by simp
  have hfr : f32SplitWidth 100 Tatami.default.ratio = 60 := f32SplitWidth_100
  have hk : f32SplitWidth 100 Tatami.default.ratio ≤ 100 := by
    rw [hfr]
    norm_num
  exact ⟨⟨h0, h1, hl, hk⟩,
    tatami_capacity Tatami.default [0, 1, 2, 3, 4, 5, 6] (Rect.mk 0 0 100 100) h0 h1 hl hk⟩

end Penrose
